import Mathlib

/-!
# Verification of `lintly/parsers.py`

A shallow embedding of the parsing/normalization layer of Lintly: the
`Violation` record, the path normalizer (`BaseLintParser._normalize_path`,
which composes `posixpath.normpath` and `posixpath.relpath`), the format
extractors (line-regex, ESLint/Stylelint indented-block, Black, cfn-nag,
gitleaks) and the `PARSERS` registry table, together with theorems about
the behaviors documented in the specification.

Python strings are modeled as Lean `String` (a wrapper around `List Char`);
Python `dict`s (insertion ordered) are modeled as association lists.
`os.path` is `posixpath` (POSIX path algebra); the working directory
(`os.getcwd()`) is passed explicitly as a `cwd : String` parameter.
Fallible Python code (code that can raise) is modeled with `Option`:
`none` means the call raises.
-/

namespace Lintly

/-! ## Basic Python string primitives (ASCII model)

`pyIsSpace` models the ASCII part of Python's `str.strip` / `str.isspace`
whitespace set (space, tab, newline, carriage return, vertical tab, form
feed).  The inputs relevant here are ASCII-plus-`✖`, so the non-ASCII
whitespace code points Python would additionally strip are not modeled. -/

def pyIsSpace (c : Char) : Bool :=
  c = ' ' ∨ c = '\t' ∨ c = '\n' ∨ c = '\r' ∨ c = Char.ofNat 11 ∨ c = Char.ofNat 12

/-- Python `str.strip()` (ASCII whitespace model): drop leading and trailing
whitespace characters. -/
def pyStrip (s : String) : String :=
  ⟨((s.data.dropWhile pyIsSpace).reverse.dropWhile pyIsSpace).reverse⟩

/-- Python `str.startswith(prefixStr)`. -/
def pyStartsWith (s pre : String) : Bool :=
  pre.data.isPrefixOf s.data

/-- Python `str.split(sep)` for a one-character separator, on character
lists.  Like Python, it keeps empty pieces: `''.split('/') == ['']`. -/
def splitSepL (sep : Char) : List Char → List (List Char)
  | [] => [[]]
  | c :: cs =>
    if c = sep then [] :: splitSepL sep cs
    else
      match splitSepL sep cs with
      | [] => [[c]]
      | h :: t => (c :: h) :: t

/-- Python `str.split(sep)` at the `String` level. -/
def pySplitChar (sep : Char) (s : String) : List String :=
  (splitSepL sep s.data).map (fun l => (⟨l⟩ : String))

/-- `sep.join(pieces)` on character lists (`'/'.join` in `posixpath`). -/
def interL (sep : Char) : List (List Char) → List Char
  | [] => []
  | [x] => x
  | x :: y :: t => x ++ sep :: interL sep (y :: t)

/-- Python `str.splitlines()` helper: scan characters, collecting the
current (reversed) line.  Recognizes `\n`, `\r` and `\r\n` terminators
(the inputs here never contain the rarer terminators Python also splits
on).  A trailing terminator does not produce a final empty line, matching
Python. -/
def splitlinesAux : List Char → List Char → List (List Char)
  | [], cur => if cur = [] then [] else [cur.reverse]
  | '\r' :: '\n' :: t, cur => cur.reverse :: splitlinesAux t []
  | '\r' :: t, cur => cur.reverse :: splitlinesAux t []
  | '\n' :: t, cur => cur.reverse :: splitlinesAux t []
  | c :: t, cur => splitlinesAux t (c :: cur)

/-- Python `str.splitlines()`. -/
def pySplitlines (s : String) : List String :=
  (splitlinesAux s.data []).map (fun l => (⟨l⟩ : String))

/-- `output.strip().splitlines()`, the first step of every line-oriented
parser in the source. -/
def pyLines (s : String) : List String :=
  pySplitlines (pyStrip s)

/-- Value of a nonempty ASCII digit string. -/
def digitsToNat (ds : List Char) : Nat :=
  ds.foldl (fun a c => a * 10 + (c.toNat - '0'.toNat)) 0

/-- Python `int(s)` (ASCII model): strip whitespace, allow one optional
sign, then require a nonempty run of decimal digits; anything else raises
(`none`).  (Python also accepts underscores between digits and non-ASCII
digits; those never occur in the captured groups modeled here.) -/
def pyInt (s : String) : Option Int :=
  match (pyStrip s).data with
  | '-' :: ds => if ds ≠ [] ∧ ds.all Char.isDigit then some (-(digitsToNat ds : Int)) else none
  | '+' :: ds => if ds ≠ [] ∧ ds.all Char.isDigit then some ((digitsToNat ds : Int)) else none
  | ds => if ds ≠ [] ∧ ds.all Char.isDigit then some ((digitsToNat ds : Int)) else none

/-! ## The `Violation` record and violation mappings

Modelled from the spec: `lintly/violations.py` is not part of the provided
source; §3 of the specification describes `Violation` as a value entity
with exactly the four fields `line`, `column`, `code`, `message` (integers
and free-form strings, always present). -/

structure Violation where
  line : Int
  column : Int
  code : String
  message : String
deriving DecidableEq

/-- The mapping every extractor returns: insertion-ordered association
list from normalized path to the ordered list of violations. -/
abbrev ViolMap := List (String × List Violation)

/-- `collections.defaultdict(list)` get-or-create append:
`violations[path].append(v)`.  An existing key keeps its position; a new
key is appended at the end (Python dict insertion order). -/
def addAppend (m : ViolMap) (k : String) (v : Violation) : ViolMap :=
  match m with
  | [] => [(k, [v])]
  | (k', vs) :: rest => if k' = k then (k', vs ++ [v]) :: rest else (k', vs) :: addAppend rest k v

/-- Plain `dict` assignment `d[k] = v`: replace the value of an existing
key in place, else append the new key at the end. -/
def dictSet {α : Type} (m : List (String × α)) (k : String) (v : α) : List (String × α) :=
  match m with
  | [] => [(k, v)]
  | (k', v') :: rest => if k' = k then (k', v) :: rest else (k', v') :: dictSet rest k v

/-! ## POSIX path algebra

`BaseLintParser._normalize_path` is
`os.path.relpath(os.path.normpath(path), start=os.getcwd())`.  The
functions below are translated from CPython's `posixpath.py`
(`normpath`, `join`, `abspath`, `relpath`) and `genericpath.commonprefix`,
working on character lists. -/

/-- One step of `posixpath.normpath`'s component loop.  `slashes` is the
number of initial slashes of the whole path (`initial_slashes` in the
Python source); `acc` is `new_comps`.  A component is appended when
`comp != '..' or (not initial_slashes and not new_comps) or
(new_comps and new_comps[-1] == '..')`; otherwise `new_comps` is popped
when nonempty (dropped when empty). -/
def normStep (slashes : Nat) (acc : List (List Char)) (comp : List Char) : List (List Char) :=
  if comp = [] ∨ comp = ['.'] then acc
  else if comp ≠ ['.', '.'] ∨ (slashes = 0 ∧ acc = []) ∨ acc.getLast? = some ['.', '.'] then
    acc ++ [comp]
  else acc.dropLast

/-- The step characterizing `normStep` on an *absolute* path, where `..`
segments always pop (`new_comps` never retains a `..`): skip empty and
`.` components, pop on `..`, append anything else. -/
def absStep (acc : List (List Char)) (c : List Char) : List (List Char) :=
  if c = [] ∨ c = ['.'] then acc
  else if c = ['.', '.'] then acc.dropLast
  else acc ++ [c]

/-- `initial_slashes` of `posixpath.normpath`: the number of leading
slashes preserved in the output (two only when the path starts with
exactly two). -/
def initSlashes (p : List Char) : Nat :=
  if p.take 2 = ['/', '/'] ∧ p.take 3 ≠ ['/', '/', '/'] then 2
  else if p.take 1 = ['/'] then 1
  else 0

/-- The rebuilt path of `posixpath.normpath` before the final
empty-string check: preserved slashes ++ `'/'.join(new_comps)`. -/
def normCore (p : List Char) : List Char :=
  List.replicate (initSlashes p) '/' ++
    interL '/' ((splitSepL '/' p).foldl (normStep (initSlashes p)) [])

/-- `posixpath.normpath` on character lists.  An empty path yields `"."`;
components are split on `/`, folded with `normStep`, and rejoined; an
empty result yields `"."`. -/
def normpathL (p : List Char) : List Char :=
  if p = [] then ['.']
  else if normCore p = [] then ['.'] else normCore p

/-- `posixpath.join(a, b)` for two paths, on character lists: `b` absolute
replaces `a`; otherwise the pieces are glued with a `/` unless `a` is
empty or already ends in `/`. -/
def pyJoinL (a b : List Char) : List Char :=
  if b.take 1 = ['/'] then b
  else if a = [] ∨ a.getLast? = some '/' then a ++ b
  else a ++ '/' :: b

/-- `posixpath.abspath(p)` with the working directory `cwd` passed
explicitly: join onto `cwd` when relative, then `normpath`. -/
def abspathL (cwd p : List Char) : List Char :=
  normpathL (if p.take 1 = ['/'] then p else pyJoinL cwd p)

/-- Length of the longest common prefix of two component lists
(`len(genericpath.commonprefix([a, b]))` for exactly two lists). -/
def cpl : List (List Char) → List (List Char) → Nat
  | a :: as, b :: bs => if a = b then cpl as bs + 1 else 0
  | _, _ => 0

/-- `posixpath.join(*rel_list)` for a nonempty component list. -/
def joinManyL : List (List Char) → List Char
  | [] => []
  | x :: xs => xs.foldl pyJoinL x

/-- The nonempty components of the absolutized path:
`[x for x in abspath(p).split(sep) if x]` in `posixpath.relpath`. -/
def absComps (cwd p : List Char) : List (List Char) :=
  (splitSepL '/' (abspathL cwd p)).filter (· ≠ [])

/-- `rel_list` of `posixpath.relpath`: `'..'` segments up to the common
prefix, then the remaining target components. -/
def relList (cwd p : List Char) : List (List Char) :=
  List.replicate ((absComps cwd cwd).length - cpl (absComps cwd cwd) (absComps cwd p))
      ['.', '.'] ++
    (absComps cwd p).drop (cpl (absComps cwd cwd) (absComps cwd p))

/-- `posixpath.relpath(p, start=cwd)` on character lists.  Python raises
`ValueError` on an empty `path`; that case is modeled as `[]` and is
unreachable from `_normalize_path` because `normpath` never returns an
empty string. -/
def relpathL (cwd p : List Char) : List Char :=
  if p = [] then []
  else if relList cwd p = [] then ['.']
  else joinManyL (relList cwd p)

/-- `BaseLintParser._normalize_path` on character lists:
`relpath(normpath(path), start=cwd)`. -/
def normalizePathL (cwd p : List Char) : List Char :=
  relpathL cwd (normpathL p)

/-- `BaseLintParser._normalize_path(path)` with the working directory
`cwd` made explicit. -/
def normalizePath (cwd path : String) : String :=
  ⟨normalizePathL cwd.data path.data⟩

/-- A "good" path component: what appears between slashes in a normalized
absolute path — nonempty, not `.`, not `..`, and containing no slash. -/
def GoodComp (c : List Char) : Prop :=
  c ≠ [] ∧ c ≠ ['.'] ∧ c ≠ ['.', '.'] ∧ '/' ∉ c

instance (c : List Char) : Decidable (GoodComp c) := by
  unfold GoodComp; infer_instance

/-- The working root is an absolute, normalized, non-double-slash path:
exactly the shape `os.getcwd()` returns — `/` followed by good components
joined with `/`. -/
def AbsNormCwd (cwd : List Char) : Prop :=
  ∃ ls : List (List Char), (∀ c ∈ ls, GoodComp c) ∧ cwd = '/' :: interL '/' ls

/-! ## Regular-expression matchers

The parsers hold their grammars as Python regex literals and run
`re.match` (anchored at the start; all patterns here also end in `$`).
Each pattern used by the claims is compiled by hand into a matcher that
implements Python's leftmost, greedy-with-backtracking semantics.  All
matcher inputs are single `str.strip()`-ed lines, so they contain no
newline; `.` therefore matches every character. -/

/-- The named capture groups of `LineRegexParser`'s grammars:
`path`, `line`, `column`, `code`, `message`. -/
structure ReGroups where
  path : String
  line : String
  column : String
  code : String
  message : String
deriving DecidableEq

/-- Regex `\w` (ASCII model: the inputs matched here are ASCII). -/
def isWordChar (c : Char) : Bool :=
  c.isAlphanum ∨ c = '_'

/-- Matcher for the suffix `:(?P<line>\d+):(?P<column>\d+): (?P<code>\w\d+)
(?P<message>.*)$` of the default (flake8/unix) grammar, applied to the
input with a candidate `path` capture already removed.  Returns the
captures `(line, column, code, message)`.  Each `\d+` is followed by a
non-digit literal, so greedy maximal munch is exact. -/
def defaultAfterPath (cs : List Char) : Option (List Char × List Char × List Char × List Char) :=
  match cs with
  | ':' :: r1 =>
    let (d1, r2) := r1.span Char.isDigit
    if d1 = [] then none
    else
      match r2 with
      | ':' :: r3 =>
        let (d2, r4) := r3.span Char.isDigit
        if d2 = [] then none
        else
          match r4 with
          | ':' :: ' ' :: w :: r6 =>
            if isWordChar w then
              let (d3, r7) := r6.span Char.isDigit
              if d3 = [] then none
              else
                match r7 with
                | ' ' :: msg => some (d1, d2, w :: d3, msg)
                | _ => none
            else none
          | _ => none
      | _ => none
  | _ => none

/-- Try the candidate `path` capture of length `k` (the rest of the line
must match `defaultAfterPath`). -/
def defaultTryAt (s : List Char) (k : Nat) : Option ReGroups :=
  (defaultAfterPath (s.drop k)).map
    (fun g => ⟨⟨s.take k⟩, ⟨g.1⟩, ⟨g.2.1⟩, ⟨g.2.2.1⟩, ⟨g.2.2.2⟩⟩)

/-- Greedy `(?P<path>.*)`: try the longest candidate path first, then
backtrack to shorter ones. -/
def defaultTryFrom (s : List Char) : Nat → Option ReGroups
  | 0 => defaultTryAt s 0
  | k + 1 =>
    match defaultTryAt s (k + 1) with
    | some g => some g
    | none => defaultTryFrom s k

/-- `re.match` of the `DEFAULT_PARSER` grammar
`^(?P<path>.*):(?P<line>\d+):(?P<column>\d+): (?P<code>\w\d+)
(?P<message>.*)$` (the flake8/unix format). -/
def defaultLineMatch (s : String) : Option ReGroups :=
  defaultTryFrom s.data s.data.length

/-- Captures of the indented violation-line grammars of `ESLintParser` and
`StylelintParser`: `line`, `column`, `message`, `code` (the severity
keyword group is consumed but not captured by name). -/
structure IndGroups where
  line : String
  column : String
  message : String
  code : String
deriving DecidableEq

/-- Try literal alternatives (e.g. `(error|warning)`) in order, returning
the rest of the input after the matched literal. -/
def matchAlts (alts : List (List Char)) (cs : List Char) : Option (List Char) :=
  match alts with
  | [] => none
  | a :: rest => if a.isPrefixOf cs then some (cs.drop a.length) else matchAlts rest cs

/-- Largest index `L ≤ bound` with a whitespace character at `L` (the
greedy choice point of `(?P<message>.*)\s+...`), searching downward from
`bound`. -/
def findWsSplit (s : List Char) : Nat → Option Nat
  | 0 =>
    match s.get? 0 with
    | some c => if pyIsSpace c then some 0 else none
    | none => none
  | k + 1 =>
    match s.get? (k + 1) with
    | some c => if pyIsSpace c then some (k + 1) else findWsSplit s k
    | none => findWsSplit s k

/-- Match `(?P<message>.*)\s+(?P<code>.+)$` against `s`: `message` is
greedy, so the split point is the largest whitespace position that still
leaves at least one character for `code`; then `\s+` is greedy, giving
back one character when it would otherwise leave nothing for `.+`
(whitespace is matched by `.`). -/
def msgCodeSplit (s : List Char) : Option (List Char × List Char) :=
  if s.length < 2 then none
  else
    match findWsSplit s (s.length - 2) with
    | none => none
    | some L =>
      let msg := s.take L
      let rest := s.drop L
      let run := rest.takeWhile pyIsSpace
      let rem := rest.drop run.length
      if rem = [] then some (msg, [rest.getLastD ' '])
      else some (msg, rem)

/-- Match `\s+(?P<message>.*)\s+(?P<code>.+)$` against the input after the
severity keyword.  The leading `\s+` first takes its maximal run `w`
(rest `t`); if the tail pattern fails on `t`, Python backtracks the run,
which succeeds exactly when it can hand one whitespace character to
`message`'s split (needs `|w| ≥ 2` and `t` nonempty) or two whitespace
characters to the tail itself (needs `|w| ≥ 3` and `t` empty). -/
def tailAfterKeyword (r : List Char) : Option (List Char × List Char) :=
  let w := r.takeWhile pyIsSpace
  let t := r.drop w.length
  if w = [] then none
  else
    match msgCodeSplit t with
    | some mc => some mc
    | none =>
      if w.length ≥ 2 ∧ t ≠ [] then some ([], t)
      else if w.length ≥ 3 ∧ t = [] then some ([], [w.getLastD ' '])
      else none

/-- `re.match` of the indented violation-line grammar
`^(?P<line>\d+):(?P<column>\d+)\s+ALTS \s+(?P<message>.*)\s+(?P<code>.+)$`
where `ALTS` is `(error|warning)` for ESLint and the literal `✖` for
Stylelint. -/
def indentViolMatch (alts : List (List Char)) (s : List Char) : Option IndGroups :=
  let (d1, r1) := s.span Char.isDigit
  if d1 = [] then none
  else
    match r1 with
    | ':' :: r2 =>
      let (d2, r3) := r2.span Char.isDigit
      if d2 = [] then none
      else
        let w1 := r3.takeWhile pyIsSpace
        if w1 = [] then none
        else
          match matchAlts alts (r3.drop w1.length) with
          | none => none
          | some r4 =>
            match tailAfterKeyword r4 with
            | some mc => some ⟨⟨d1⟩, ⟨d2⟩, ⟨mc.1⟩, ⟨mc.2⟩⟩
            | none => none
    | _ => none

/-- The `(error|warning)` alternatives of `ESLintParser`'s grammar. -/
def eslintAlts : List (List Char) := [("error").data, ("warning").data]

/-- The literal `✖` of `StylelintParser`'s grammar. -/
def stylelintAlts : List (List Char) := [("✖").data]

/-! ## Line-oriented regex extractor (`LineRegexParser`) -/

/-- The line loop of `LineRegexParser.parse_violations`: strip each line,
skip it when the grammar does not match, otherwise normalize the captured
path and append a `Violation` built from the captures (`line`/`column`
through `int(...)`, whose failure would raise — `none`). -/
def lineRegexGo (mf : String → Option ReGroups) (cwd : String) :
    ViolMap → List String → Option ViolMap
  | m, [] => some m
  | m, l :: rest =>
    match mf (pyStrip l) with
    | none => lineRegexGo mf cwd m rest
    | some g =>
      match pyInt g.line, pyInt g.column with
      | some ln, some col =>
        lineRegexGo mf cwd
          (addAppend m (normalizePath cwd g.path) ⟨ln, col, g.code, g.message⟩) rest
      | _, _ => none

/-- `LineRegexParser(regex).parse_violations(output)` with the compiled
regex abstracted as the matcher `mf`. -/
def lineRegexParse (mf : String → Option ReGroups) (cwd s : String) : Option ViolMap :=
  lineRegexGo mf cwd [] (pyLines s)

/-! ## Indented-block extractors (`ESLintParser`, `StylelintParser`)

`current_file` starts as Python `None`, so the violation mapping is keyed
by `Option String` (a violation line before any header is appended under
key `None` by the `defaultdict`). -/

abbrev OViolMap := List (Option String × List Violation)

/-- `violations[current_file].append(v)` for the `Option String`-keyed
defaultdict. -/
def addAppendO (m : OViolMap) (k : Option String) (v : Violation) : OViolMap :=
  match m with
  | [] => [(k, [v])]
  | (k', vs) :: rest => if k' = k then (k', vs ++ [v]) :: rest else (k', vs) :: addAppendO rest k v

/-- The line loop of `ESLintParser.parse_violations`: an indented line is
matched against the violation grammar (`match.group` on a failed match
raises — `none`); a line starting with `✖` ends processing; any other
line becomes the new `current_file`. -/
def eslintGo (cwd : String) : Option String → OViolMap → List String → Option OViolMap
  | _, m, [] => some m
  | cf, m, line :: rest =>
    if pyStartsWith line " " then
      match indentViolMatch eslintAlts (pyStrip line).data with
      | none => none
      | some g =>
        match pyInt g.line, pyInt g.column with
        | some ln, some col =>
          eslintGo cwd cf (addAppendO m cf ⟨ln, col, pyStrip g.code, pyStrip g.message⟩) rest
        | _, _ => none
    else if pyStartsWith line "✖" then some m
    else eslintGo cwd (some (normalizePath cwd line)) m rest

/-- `ESLintParser().parse_violations(output)`. -/
def eslintParse (cwd s : String) : Option OViolMap :=
  eslintGo cwd none [] (pyLines s)

/-- The line loop of `StylelintParser.parse_violations` (same state
machine as ESLint, its own grammar, no terminator line). -/
def stylelintGo (cwd : String) : Option String → OViolMap → List String → Option OViolMap
  | _, m, [] => some m
  | cf, m, line :: rest =>
    if pyStartsWith line " " then
      match indentViolMatch stylelintAlts (pyStrip line).data with
      | none => none
      | some g =>
        match pyInt g.line, pyInt g.column with
        | some ln, some col =>
          stylelintGo cwd cf (addAppendO m cf ⟨ln, col, pyStrip g.code, pyStrip g.message⟩) rest
        | _, _ => none
    else stylelintGo cwd (some (normalizePath cwd line)) m rest

/-- `StylelintParser().parse_violations(output)`. -/
def stylelintParse (cwd s : String) : Option OViolMap :=
  stylelintGo cwd none [] (pyLines s)

/-! ## Keyword-triggered plain-text extractor (`BlackParser`) -/

/-- The fixed violation `BlackParser` emits for a file that needs
formatting. -/
def blackViolation : Violation :=
  ⟨1, 1, "`black`", "this file needs to be formatted"⟩

/-- `line.split(' ')[-1]` — the last space-separated part of the line. -/
def lastWord (l : String) : String :=
  (pySplitChar ' ' l).getLastD ""

/-- The line loop of `BlackParser.parse_violations`: a line starting with
`would reformat ` assigns (plain dict `=`, replacing) the fixed violation
to the normalized path named by the last word; any other line is
ignored. -/
def blackGo (cwd : String) : ViolMap → List String → ViolMap
  | m, [] => m
  | m, l :: rest =>
    if pyStartsWith l "would reformat " then
      blackGo cwd (dictSet m (normalizePath cwd (lastWord l)) [blackViolation]) rest
    else blackGo cwd m rest

/-- `BlackParser().parse_violations(output)` (total: this parser cannot
raise). -/
def blackParse (cwd s : String) : ViolMap :=
  blackGo cwd [] (pyLines s)

/-! ## JSON model

The JSON-based extractors call `json.loads(output)` and walk the result.
`JValue` models the decoded document; numbers are modeled as integers
(every numeric field in the schemas at hand is an integer; fractional and
exponent forms are rejected by this model although Python would accept
them).  Objects carry insertion-ordered unique keys — the decoder below
applies the Python `dict` rule that a duplicated key keeps its first
position with its last value. -/

inductive JValue where
  | jnull
  | jbool (b : Bool)
  | jnum (n : Int)
  | jstr (s : String)
  | jarr (items : List JValue)
  | jobj (fields : List (String × JValue))

/-- Python `v[key]` on a decoded JSON value: a key lookup on a dict
(`none` models the `KeyError` of a missing key); subscripting a non-dict
with a string raises (`none`). -/
def jget (v : JValue) (key : String) : Option JValue :=
  match v with
  | .jobj fields => fields.lookup key
  | _ => none

/-- JSON whitespace skipped between tokens. -/
def jskipWs (cs : List Char) : List Char :=
  cs.dropWhile (fun c => c = ' ' ∨ c = '\t' ∨ c = '\n' ∨ c = '\r')

/-- Value of a hex digit, for `\uXXXX` escapes. -/
def hexVal (c : Char) : Option Nat :=
  if c.isDigit then some (c.toNat - '0'.toNat)
  else if 'a' ≤ c ∧ c ≤ 'f' then some (c.toNat - 'a'.toNat + 10)
  else if 'A' ≤ c ∧ c ≤ 'F' then some (c.toNat - 'A'.toNat + 10)
  else none

/-- Body of a JSON string after the opening quote: collect characters
until the closing quote, decoding the standard escapes (`\uXXXX` without
surrogate pairs — none occur in the inputs here). -/
def jstrBody : Nat → List Char → List Char → Option (String × List Char)
  | 0, _, _ => none
  | _ + 1, _, [] => none
  | _ + 1, acc, '"' :: r => some (⟨acc.reverse⟩, r)
  | n + 1, acc, '\\' :: e :: r =>
    (match e with
      | '"' => jstrBody n ('"' :: acc) r
      | '\\' => jstrBody n ('\\' :: acc) r
      | '/' => jstrBody n ('/' :: acc) r
      | 'n' => jstrBody n ('\n' :: acc) r
      | 't' => jstrBody n ('\t' :: acc) r
      | 'r' => jstrBody n ('\r' :: acc) r
      | 'b' => jstrBody n (Char.ofNat 8 :: acc) r
      | 'f' => jstrBody n (Char.ofNat 12 :: acc) r
      | 'u' =>
        match r with
        | a :: b :: c :: d :: r2 =>
          (match hexVal a, hexVal b, hexVal c, hexVal d with
           | some x, some y, some z, some w =>
             jstrBody n (Char.ofNat (((x * 16 + y) * 16 + z) * 16 + w) :: acc) r2
           | _, _, _, _ => none)
        | _ => none
      | _ => none)
  | n + 1, acc, c :: r => jstrBody n (c :: acc) r

mutual

/-- Recursive-descent JSON value decoder (`json.loads` core), with a fuel
argument for termination; `jsonLoads` supplies ample fuel. -/
def jval : Nat → List Char → Option (JValue × List Char)
  | 0, _ => none
  | n + 1, cs0 =>
    match jskipWs cs0 with
    | 'n' :: 'u' :: 'l' :: 'l' :: r => some (.jnull, r)
    | 't' :: 'r' :: 'u' :: 'e' :: r => some (.jbool true, r)
    | 'f' :: 'a' :: 'l' :: 's' :: 'e' :: r => some (.jbool false, r)
    | '"' :: r => (jstrBody (r.length + 1) [] r).map (fun p => (.jstr p.1, p.2))
    | '[' :: r =>
      (match jskipWs r with
       | ']' :: r2 => some (.jarr [], r2)
       | _ =>
         match jarrItems n r with
         | some (items, r2) => some (.jarr items, r2)
         | none => none)
    | '{' :: r =>
      (match jskipWs r with
       | '}' :: r2 => some (.jobj [], r2)
       | _ =>
         match jobjItems n r with
         | some (fields, r2) =>
           some (.jobj (fields.foldl (fun m kv => dictSet m kv.1 kv.2) []), r2)
         | none => none)
    | '-' :: r =>
      let (ds, r2) := r.span Char.isDigit
      if ds = [] then none else some (.jnum (-(digitsToNat ds : Int)), r2)
    | c :: r =>
      if c.isDigit then
        let (ds, r2) := (c :: r).span Char.isDigit
        some (.jnum (digitsToNat ds : Int), r2)
      else none
    | [] => none

/-- Comma-separated array items up to the closing `]`. -/
def jarrItems : Nat → List Char → Option (List JValue × List Char)
  | 0, _ => none
  | n + 1, cs =>
    match jval n cs with
    | some (v, r) =>
      (match jskipWs r with
       | ',' :: r2 => (jarrItems n r2).map (fun p => (v :: p.1, p.2))
       | ']' :: r2 => some ([v], r2)
       | _ => none)
    | none => none

/-- Comma-separated `"key": value` object items up to the closing `}`. -/
def jobjItems : Nat → List Char → Option (List (String × JValue) × List Char)
  | 0, _ => none
  | n + 1, cs =>
    match jskipWs cs with
    | '"' :: r =>
      match jstrBody (r.length + 1) [] r with
      | some (k, r2) =>
        (match jskipWs r2 with
         | ':' :: r3 =>
           match jval n r3 with
           | some (v, r4) =>
             (match jskipWs r4 with
              | ',' :: r5 => (jobjItems n r5).map (fun p => ((k, v) :: p.1, p.2))
              | '}' :: r5 => some ([(k, v)], r5)
              | _ => none)
           | none => none
         | _ => none)
      | none => none
    | _ => none

end

/-- `json.loads(s)`: decode one value and require only whitespace after
it; empty or whitespace-only input raises (`none`), as does any other
malformed document. -/
def jsonLoads (s : String) : Option JValue :=
  match jval (s.data.length + 1) s.data with
  | some (v, r) => if jskipWs r = [] then some v else none
  | none => none

/-- Python `for x in v:` over a decoded JSON value, in the contexts used
by the parsers below (where the loop body subscripts each element with a
string key): a list yields its items; an empty dict or empty string
yields zero items; any other value either is not iterable or yields
elements whose subscripting raises, which the callers turn into `none`
via `jget`.  A nonempty dict (whose iteration would yield its keys) is
modeled as `none` directly, matching the raise in the loop body. -/
def jelems : JValue → Option (List JValue)
  | .jarr items => some items
  | .jobj [] => some []
  | .jstr "" => some []
  | _ => none

/-- Fold a fallible per-record step over a record list, aborting (the
whole parse raises) on the first failure. -/
def foldOpt {α : Type} (f : ViolMap → α → Option ViolMap) :
    ViolMap → List α → Option ViolMap
  | m, [] => some m
  | m, x :: rest =>
    match f m x with
    | some m' => foldOpt f m' rest
    | none => none

/-! ## Structured-record extractors (`GitLeaksParser`, `CfnNagParser`) -/

/-- One gitleaks record: read `lineNumber`, `offender`, `rule`, `file` and
append a violation (column fixed at the sentinel `0`) under the
normalized `file` path.  A missing key raises; a value of unexpected type
is modeled as a failure as well (Python would store it unchecked — no
such record occurs in the inputs the claims quantify over). -/
def gitleaksItem (cwd : String) (m : ViolMap) (v : JValue) : Option ViolMap :=
  match jget v "lineNumber", jget v "offender", jget v "rule", jget v "file" with
  | some (.jnum ln), some (.jstr off), some (.jstr rule), some (.jstr file) =>
    some (addAppend m (normalizePath cwd file) ⟨ln, 0, off, rule⟩)
  | _, _, _, _ => none

/-- `GitLeaksParser().parse_violations(output)`: only the *empty* string
short-circuits to an empty dict (`if not output`); any other input goes
straight to `json.loads`. -/
def gitleaksParse (cwd s : String) : Option ViolMap :=
  if s = "" then some []
  else
    match jsonLoads s with
    | some j =>
      (match jelems j with
       | some items => foldOpt (gitleaksItem cwd) [] items
       | none => none)
    | none => none

/-- The inner `for line_number in violation_info["line_numbers"]` loop of
`CfnNagParser`: each line number appends a violation with column `0` and
the record's `id`/`message` (re-read on every iteration, as in the
source). -/
def cfnNagInfoFold (vi : JValue) : List JValue → List Violation → Option (List Violation)
  | [], acc => some acc
  | ln :: rest, acc =>
    match ln, jget vi "id", jget vi "message" with
    | .jnum n, some (.jstr c), some (.jstr msg) =>
      cfnNagInfoFold vi rest (acc ++ [⟨n, 0, c, msg⟩])
    | _, _, _ => none

/-- The `for violation_info in file["file_results"]["violations"]` loop,
accumulating into `file_violations`. -/
def cfnNagInfos : List JValue → List Violation → Option (List Violation)
  | [], acc => some acc
  | vi :: rest, acc =>
    match jget vi "line_numbers" with
    | some lnv =>
      (match jelems lnv with
       | some lns =>
         (match cfnNagInfoFold vi lns acc with
          | some acc' => cfnNagInfos rest acc'
          | none => none)
       | none => none)
    | none => none

/-- One cfn-nag file record: expand all its violation records, then
normalize `file["filename"]` and *assign* (plain dict `=`) the collected
list — even when it is empty. -/
def cfnNagFile (cwd : String) (m : ViolMap) (file : JValue) : Option ViolMap :=
  match jget file "file_results" with
  | some fr =>
    (match jget fr "violations" with
     | some vv =>
       (match jelems vv with
        | some infos =>
          (match cfnNagInfos infos [] with
           | some fvs =>
             (match jget file "filename" with
              | some (.jstr fn) => some (dictSet m (normalizePath cwd fn) fvs)
              | _ => none)
           | none => none)
        | none => none)
     | none => none)
  | none => none

/-- `CfnNagParser().parse_violations(output)`: no empty-input guard at all
— `json.loads` runs first and raises on empty or whitespace input. -/
def cfnNagParse (cwd s : String) : Option ViolMap :=
  match jsonLoads s with
  | some j =>
    (match jelems j with
     | some files => foldOpt (cfnNagFile cwd) [] files
     | none => none)
  | none => none

/-! ## Format registry -/

/-- The distinct extractor instances the `PARSERS` table points at. -/
inductive Extractor where
  | defaultLineRegex
  | pylintJSON
  | eslintFmt
  | eslintUnixRegex
  | stylelintFmt
  | blackFmt
  | cfnLintFmt
  | banditJSON
  | cfnNagFmt
  | gitleaksFmt
  | hadolintFmt
deriving DecidableEq

/-- The `PARSERS` table of `lintly/parsers.py`: format key → extractor
instance.  `unix` and `flake8` alias the single `DEFAULT_PARSER`
instance. -/
def PARSERS : List (String × Extractor) :=
  [("unix", .defaultLineRegex),
   ("flake8", .defaultLineRegex),
   ("pylint-json", .pylintJSON),
   ("eslint", .eslintFmt),
   ("eslint-unix", .eslintUnixRegex),
   ("stylelint", .stylelintFmt),
   ("black", .blackFmt),
   ("cfn-lint", .cfnLintFmt),
   ("bandit-json", .banditJSON),
   ("cfn-nag", .cfnNagFmt),
   ("gitleaks", .gitleaksFmt),
   ("hadolint", .hadolintFmt)]

/-- Modelled from the spec: the registry resolution step
(`resolve(format_key) -> Extractor`, §4.5) — the call site that indexes
`PARSERS` lives outside the provided source file.  Case-sensitive exact
lookup in the fixed table; an unknown key is a configuration error
(`none`), raised before the extractor (and hence any output parsing) is
ever invoked — `resolveFormat` does not even receive the raw output. -/
def resolveFormat (key : String) : Option Extractor :=
  PARSERS.lookup key

/-! ## Helper lemmas -/

/-- A line starting with the terminator glyph does not start with a
space. -/
theorem not_space_of_term {t : String} (ht : pyStartsWith t "✖" = true) :
    pyStartsWith t " " = false := by
  unfold pyStartsWith at *
  cases hd : t.data with
  | nil => rw [hd] at ht; simp [List.isPrefixOf] at ht
  | cons c r =>
    rw [hd] at ht
    simp [List.isPrefixOf] at ht ⊢
    rintro rfl
    exact absurd ht (by decide)

/-- Appending a header line (neither indented nor a terminator) at the end
of the input leaves the ESLint loop's result unchanged: a header only
updates `current_file` and never touches the mapping. -/
theorem eslintGo_trailing_header (cwd h : String)
    (h1 : pyStartsWith h " " = false) (h2 : pyStartsWith h "✖" = false) :
    ∀ (ls : List String) (cf : Option String) (m : OViolMap),
      eslintGo cwd cf m (ls ++ [h]) = eslintGo cwd cf m ls := by
  intro ls
  induction ls with
  | nil => intro cf m; simp [eslintGo, h1, h2]
  | cons l rest ih =>
    intro cf m
    simp only [List.cons_append, eslintGo]
    split
    · split
      · rfl
      · split
        · exact ih _ _
        · rfl
    · split
      · rfl
      · exact ih _ _

/-- Same for the Stylelint loop (no terminator variant). -/
theorem stylelintGo_trailing_header (cwd h : String)
    (h1 : pyStartsWith h " " = false) :
    ∀ (ls : List String) (cf : Option String) (m : OViolMap),
      stylelintGo cwd cf m (ls ++ [h]) = stylelintGo cwd cf m ls := by
  intro ls
  induction ls with
  | nil => intro cf m; simp [stylelintGo, h1]
  | cons l rest ih =>
    intro cf m
    simp only [List.cons_append, stylelintGo]
    split
    · split
      · rfl
      · split
        · exact ih _ _
        · rfl
    · exact ih _ _

/-- Everything after a terminator line is ignored by the ESLint loop. -/
theorem eslintGo_terminator (cwd t : String) (ht : pyStartsWith t "✖" = true) :
    ∀ (pre post : List String) (cf : Option String) (m : OViolMap),
      eslintGo cwd cf m (pre ++ t :: post) = eslintGo cwd cf m (pre ++ [t]) := by
  intro pre
  induction pre with
  | nil =>
    intro post cf m
    simp [eslintGo, not_space_of_term ht, ht]
  | cons l rest ih =>
    intro post cf m
    simp only [List.cons_append, eslintGo]
    split
    · split
      · rfl
      · split
        · exact ih _ _ _
        · rfl
    · split
      · rfl
      · exact ih _ _ _

/-- A line the grammar does not match contributes nothing to the
line-regex loop and never makes it fail. -/
theorem lineRegexGo_skip (mf : String → Option ReGroups) (cwd l : String)
    (hl : mf (pyStrip l) = none) :
    ∀ (ls1 ls2 : List String) (m : ViolMap),
      lineRegexGo mf cwd m (ls1 ++ l :: ls2) = lineRegexGo mf cwd m (ls1 ++ ls2) := by
  intro ls1
  induction ls1 with
  | nil => intro ls2 m; simp [lineRegexGo, hl]
  | cons x rest ih =>
    intro ls2 m
    simp only [List.cons_append, lineRegexGo]
    split
    · exact ih _ _
    · split
      · exact ih _ _
      · rfl

/-- A non-trigger line contributes nothing to the Black loop. -/
theorem blackGo_skip (cwd l : String)
    (hl : pyStartsWith l "would reformat " = false) :
    ∀ (ls1 ls2 : List String) (m : ViolMap),
      blackGo cwd m (ls1 ++ l :: ls2) = blackGo cwd m (ls1 ++ ls2) := by
  intro ls1
  induction ls1 with
  | nil => intro ls2 m; simp [blackGo, hl]
  | cons x rest ih =>
    intro ls2 m
    simp only [List.cons_append, blackGo]
    split
    · exact ih _ _
    · exact ih _ _

/-- A key that is not in an association list's key column is not found by
`List.lookup`. -/
theorem lookup_none_of_not_mem {α : Type} (k : String) :
    ∀ (l : List (String × α)), k ∉ l.map Prod.fst → l.lookup k = none := by
  intro l
  induction l with
  | nil => intro _; rfl
  | cons p rest ih =>
    intro h
    simp only [List.map_cons, List.mem_cons, not_or] at h
    simp only [List.lookup, beq_eq_false_iff_ne.mpr h.1]
    exact ih h.2

/-! ## Path algebra lemmas (for C5) -/

theorem splitSepL_ne_nil (sep : Char) : ∀ (l : List Char), splitSepL sep l ≠ []
  | [] => by simp [splitSepL]
  | c :: cs => by
    simp only [splitSepL]
    split
    · simp
    · split
      · simp
      · simp

/-- `split` of a string containing no separator is the singleton piece. -/
theorem splitSepL_no_sep (sep : Char) : ∀ (x : List Char), sep ∉ x → splitSepL sep x = [x]
  | [], _ => rfl
  | c :: cs, h => by
    simp only [List.mem_cons, not_or] at h
    have hcs : ¬ c = sep := fun hc => h.1 hc.symm
    simp only [splitSepL, if_neg hcs, splitSepL_no_sep sep cs h.2]

/-- Splitting `x ++ sep :: rest` when `x` is separator-free peels off
`x` as the first piece. -/
theorem splitSepL_append (sep : Char) : ∀ (x rest : List Char), sep ∉ x →
    splitSepL sep (x ++ sep :: rest) = x :: splitSepL sep rest
  | [], rest, _ => by simp [splitSepL]
  | c :: cs, rest, h => by
    simp only [List.mem_cons, not_or] at h
    have hcs : ¬ c = sep := fun hc => h.1 hc.symm
    show splitSepL sep (c :: (cs ++ sep :: rest)) = (c :: cs) :: splitSepL sep rest
    simp only [splitSepL, if_neg hcs, splitSepL_append sep cs rest h.2]

theorem splitSepL_sep_cons (sep : Char) (rest : List Char) :
    splitSepL sep (sep :: rest) = [] :: splitSepL sep rest := by
  simp [splitSepL]

/-- No piece produced by `split` contains the separator. -/
theorem mem_splitSepL_no_sep (sep : Char) : ∀ (s : List Char), ∀ x ∈ splitSepL sep s, sep ∉ x
  | [] => by
    intro x hx
    simp [splitSepL] at hx
    subst hx
    simp
  | c :: cs => by
    intro x hx
    simp only [splitSepL] at hx
    by_cases hc : c = sep
    · rw [if_pos hc] at hx
      rcases List.mem_cons.mp hx with rfl | hx
      · simp
      · exact mem_splitSepL_no_sep sep cs x hx
    · rw [if_neg hc] at hx
      cases hsp : splitSepL sep cs with
      | nil => exact absurd hsp (splitSepL_ne_nil sep cs)
      | cons h t =>
        rw [hsp] at hx
        rcases List.mem_cons.mp hx with rfl | hx
        · intro hmem
          rcases List.mem_cons.mp hmem with hcc | hmem
          · exact hc hcc.symm
          · exact mem_splitSepL_no_sep sep cs h
              (by rw [hsp]; exact List.mem_cons_self h t) hmem
        · exact mem_splitSepL_no_sep sep cs x
            (by rw [hsp]; exact List.mem_cons_of_mem h hx)

/-- `split` undoes `join` on a nonempty list of nonempty, separator-free
pieces. -/
theorem splitSepL_interL (sep : Char) : ∀ (ls : List (List Char)), ls ≠ [] →
    (∀ c ∈ ls, c ≠ [] ∧ sep ∉ c) → splitSepL sep (interL sep ls) = ls
  | [], h, _ => absurd rfl h
  | [x], _, hg => by
    simp only [interL]
    exact splitSepL_no_sep sep x (hg x (by simp)).2
  | x :: y :: t, _, hg => by
    simp only [interL]
    rw [splitSepL_append sep x (interL sep (y :: t)) (hg x (by simp)).2]
    rw [splitSepL_interL sep (y :: t) (by simp)
      (fun c hc => hg c (List.mem_cons_of_mem x hc))]

/-- `join` of a cons starts with the first piece. -/
theorem interL_cons_shape (sep : Char) (x : List Char) : ∀ (xs : List (List Char)),
    ∃ r, interL sep (x :: xs) = x ++ r
  | [] => ⟨[], by simp [interL]⟩
  | y :: t => ⟨sep :: interL sep (y :: t), rfl⟩

theorem interL_ne_nil (sep : Char) (x : List Char) (xs : List (List Char)) (hx : x ≠ []) :
    interL sep (x :: xs) ≠ [] := by
  obtain ⟨r, hr⟩ := interL_cons_shape sep x xs
  rw [hr]
  simp [hx]

/-- The last character of a `join` of nonempty separator-free pieces is
not the separator. -/
theorem interL_getLast_ne (sep : Char) : ∀ (ls : List (List Char)), ls ≠ [] →
    (∀ c ∈ ls, c ≠ [] ∧ sep ∉ c) →
    ∃ c, (interL sep ls).getLast? = some c ∧ c ≠ sep
  | [], h, _ => absurd rfl h
  | [x], _, hg => by
    have hx := hg x (by simp)
    cases hlast : x.getLast? with
    | none => exact absurd (List.getLast?_eq_none_iff.mp hlast) hx.1
    | some c =>
      refine ⟨c, by simpa [interL] using hlast, ?_⟩
      intro hc
      subst hc
      exact hx.2 (List.mem_of_mem_getLast? hlast)
  | x :: y :: t, _, hg => by
    obtain ⟨c, hc1, hc2⟩ := interL_getLast_ne sep (y :: t) (by simp)
      (fun d hd => hg d (List.mem_cons_of_mem x hd))
    refine ⟨c, ?_, hc2⟩
    have hne : interL sep (y :: t) ≠ [] := interL_ne_nil sep y t (hg y (by simp)).1
    show (interL sep (x :: y :: t)).getLast? = some c
    have : interL sep (x :: y :: t) = (x ++ [sep]) ++ interL sep (y :: t) := by
      simp [interL]
    rw [this, List.getLast?_append_of_ne_nil _ hne, hc1]

/-- Folding `absStep` over ordinary components (never empty, `.` or
`..`) just appends them. -/
theorem foldl_absStep_good : ∀ (l acc : List (List Char)),
    (∀ c ∈ l, c ≠ [] ∧ c ≠ ['.'] ∧ c ≠ ['.', '.']) →
    l.foldl absStep acc = acc ++ l
  | [], acc, _ => by simp
  | c :: rest, acc, h => by
    have hc := h c (by simp)
    simp only [List.foldl_cons]
    have hstep : absStep acc c = acc ++ [c] := by
      unfold absStep
      rw [if_neg (not_or.mpr ⟨hc.1, hc.2.1⟩), if_neg hc.2.2]
    rw [hstep, foldl_absStep_good rest (acc ++ [c])
      (fun d hd => h d (List.mem_cons_of_mem c hd))]
    simp

/-- Folding `absStep` over `k` copies of `..` pops `k` components. -/
theorem foldl_absStep_dots : ∀ (k : Nat) (acc : List (List Char)),
    (List.replicate k ['.', '.']).foldl absStep acc = acc.take (acc.length - k)
  | 0, acc => by simp
  | k + 1, acc => by
    simp only [List.replicate_succ, List.foldl_cons]
    have hstep : absStep acc ['.', '.'] = acc.dropLast := by
      unfold absStep
      rw [if_neg (by decide), if_pos rfl]
    rw [hstep, foldl_absStep_dots k acc.dropLast, List.dropLast_eq_take,
      List.take_take, List.length_take]
    congr 1
    omega

/-- Every element surviving an `absStep` fold from a good accumulator over
slash-free components is a good component. -/
theorem mem_foldl_absStep : ∀ (l acc : List (List Char)),
    (∀ x ∈ acc, GoodComp x) → (∀ c ∈ l, '/' ∉ c) →
    ∀ x ∈ l.foldl absStep acc, GoodComp x
  | [], acc, ha, _ => by simpa using ha
  | c :: rest, acc, ha, hl => by
    refine mem_foldl_absStep rest (absStep acc c) ?_
      (fun d hd => hl d (List.mem_cons_of_mem c hd))
    intro x hx
    unfold absStep at hx
    split at hx
    · exact ha x hx
    · split at hx
      · exact ha x (List.dropLast_subset acc hx)
      · next h1 h2 =>
        rcases List.mem_append.mp hx with hx | hx
        · exact ha x hx
        · rw [List.mem_singleton.mp hx]
          rw [not_or] at h1
          exact ⟨h1.1, h1.2, h2, hl c (by simp)⟩

/-- When the path is absolute (`slashes ≠ 0`) and the accumulator holds no
`..`, `normStep` coincides with `absStep`. -/
theorem foldl_normStep_eq_absStep (s : Nat) (hs : s ≠ 0) :
    ∀ (l acc : List (List Char)), (∀ x ∈ acc, x ≠ ['.', '.']) →
      l.foldl (normStep s) acc = l.foldl absStep acc
  | [], _, _ => rfl
  | c :: rest, acc, hacc => by
    have hstep : normStep s acc c = absStep acc c := by
      unfold normStep absStep
      by_cases h1 : c = [] ∨ c = ['.']
      · rw [if_pos h1, if_pos h1]
      · rw [if_neg h1, if_neg h1]
        by_cases h2 : c = ['.', '.']
        · have hcond : ¬(c ≠ ['.', '.'] ∨ (s = 0 ∧ acc = []) ∨
              acc.getLast? = some ['.', '.']) := by
            rintro (hne | ⟨hz, _⟩ | hlast)
            · exact hne h2
            · exact hs hz
            · exact hacc _ (List.mem_of_mem_getLast? hlast) rfl
          rw [if_pos h2, if_neg hcond]
        · rw [if_pos (Or.inl h2), if_neg h2]
    rw [List.foldl_cons, List.foldl_cons, hstep]
    refine foldl_normStep_eq_absStep s hs rest (absStep acc c) ?_
    intro x hx
    unfold absStep at hx
    split at hx
    · exact hacc x hx
    · split at hx
      · exact hacc x (List.dropLast_subset acc hx)
      · next h1 h2 =>
        rcases List.mem_append.mp hx with hx | hx
        · exact hacc x hx
        · rw [List.mem_singleton.mp hx]; exact h2

/-- Folding `normStep` over ordinary components appends them, for any
slash count and accumulator. -/
theorem foldl_normStep_good (s : Nat) : ∀ (l acc : List (List Char)),
    (∀ c ∈ l, c ≠ [] ∧ c ≠ ['.'] ∧ c ≠ ['.', '.']) →
    l.foldl (normStep s) acc = acc ++ l
  | [], acc, _ => by simp
  | c :: rest, acc, h => by
    have hc := h c (by simp)
    simp only [List.foldl_cons]
    have hstep : normStep s acc c = acc ++ [c] := by
      unfold normStep
      rw [if_neg (not_or.mpr ⟨hc.1, hc.2.1⟩), if_pos (Or.inl hc.2.2)]
    rw [hstep, foldl_normStep_good s rest (acc ++ [c])
      (fun d hd => h d (List.mem_cons_of_mem c hd))]
    simp

/-- In the relative case (`slashes = 0`) leading `..` components pile up
in the accumulator. -/
theorem foldl_normStep0_dots : ∀ (k j : Nat),
    (List.replicate k ['.', '.']).foldl (normStep 0) (List.replicate j ['.', '.']) =
      List.replicate (j + k) ['.', '.']
  | 0, j => by simp
  | k + 1, j => by
    simp only [List.replicate_succ, List.foldl_cons]
    have hstep : normStep 0 (List.replicate j ['.', '.']) ['.', '.'] =
        List.replicate (j + 1) ['.', '.'] := by
      unfold normStep
      rw [if_neg (by decide), if_pos, List.replicate_succ' j]
      cases j with
      | zero => exact Or.inr (Or.inl ⟨rfl, by simp⟩)
      | succ j' =>
        refine Or.inr (Or.inr ?_)
        rw [List.replicate_succ' j']
        exact List.getLast?_concat _
    rw [hstep, foldl_normStep0_dots k (j + 1)]
    congr 1
    omega

/-- A `..*k ++ good` component list is a fixed point of the relative
`normStep` fold. -/
theorem foldl_normStep0_shape (k : Nat) (tl : List (List Char))
    (htl : ∀ c ∈ tl, c ≠ [] ∧ c ≠ ['.'] ∧ c ≠ ['.', '.']) :
    (List.replicate k ['.', '.'] ++ tl).foldl (normStep 0) [] =
      List.replicate k ['.', '.'] ++ tl := by
  rw [List.foldl_append]
  have h0 := foldl_normStep0_dots k 0
  simp only [List.replicate_zero, Nat.zero_add] at h0
  rw [h0, foldl_normStep_good 0 tl _ htl]

/-- The common prefix of a list with itself is the whole list. -/
theorem cpl_self : ∀ (l : List (List Char)), cpl l l = l.length
  | [] => rfl
  | a :: as => by simp [cpl, cpl_self as]

theorem cpl_le_left : ∀ (a b : List (List Char)), cpl a b ≤ a.length
  | [], _ => by simp [cpl]
  | _ :: _, [] => by simp [cpl]
  | a :: as, b :: bs => by
    by_cases hab : a = b
    · simp only [cpl, if_pos hab, List.length_cons]
      exact Nat.succ_le_succ (cpl_le_left as bs)
    · simp [cpl, if_neg hab]

/-- Common prefix of `l` against `l.take i ++ rest` splits additively. -/
theorem cpl_append_take : ∀ (l rest : List (List Char)) (i : Nat), i ≤ l.length →
    cpl l (l.take i ++ rest) = i + cpl (l.drop i) rest
  | l, rest, 0, _ => by simp
  | [], _, i + 1, h => by simp at h
  | a :: as, rest, i + 1, h => by
    show cpl (a :: as) (a :: (as.take i ++ rest)) = (i + 1) + cpl (as.drop i) rest
    have hstep : cpl (a :: as) (a :: (as.take i ++ rest)) =
        cpl as (as.take i ++ rest) + 1 := by
      simp [cpl]
    rw [hstep, cpl_append_take as rest i (Nat.le_of_succ_le_succ h)]
    omega

/-- Past their common prefix, two lists immediately disagree. -/
theorem cpl_drop : ∀ (a b : List (List Char)),
    cpl (a.drop (cpl a b)) (b.drop (cpl a b)) = 0
  | [], b => by simp [cpl]
  | _ :: _, [] => by simp [cpl]
  | a :: as, b :: bs => by
    by_cases hab : a = b
    · simp only [cpl, if_pos hab, List.drop_succ_cons]
      exact cpl_drop as bs
    · simp [cpl, if_neg hab]

/-- `posixpath.join(*rel_list)` on nonempty slash-free components is just
`'/'.join(rel_list)`. -/
theorem joinManyL_eq_interL_aux : ∀ (xs : List (List Char)) (a : List Char),
    a ≠ [] → (∀ cl, a.getLast? = some cl → cl ≠ '/') →
    (∀ c ∈ xs, c ≠ [] ∧ '/' ∉ c) →
    xs.foldl pyJoinL a = interL '/' (a :: xs)
  | [], a, _, _, _ => by simp [interL]
  | y :: ys, a, ha, hlast, hxs => by
    have hy := hxs y (by simp)
    have hystep : pyJoinL a y = a ++ '/' :: y := by
      unfold pyJoinL
      rw [if_neg, if_neg]
      · rw [not_or]
        refine ⟨ha, ?_⟩
        intro hsl
        exact hlast '/' hsl rfl
      · cases y with
        | nil => exact absurd rfl hy.1
        | cons c cs =>
          intro hc
          rw [show (c :: cs).take 1 = [c] from rfl] at hc
          injection hc with hc1 _
          subst hc1
          exact hy.2 (List.mem_cons_self _ _)
    simp only [List.foldl_cons, hystep]
    rw [joinManyL_eq_interL_aux ys (a ++ '/' :: y) (by simp) ?_
      (fun c hc => hxs c (List.mem_cons_of_mem y hc))]
    · show interL '/' ((a ++ '/' :: y) :: ys) = interL '/' (a :: y :: ys)
      cases ys with
      | nil => simp [interL]
      | cons z t => simp [interL]
    · intro cl hcl
      rw [show a ++ '/' :: y = (a ++ ['/']) ++ y from by simp] at hcl
      rw [List.getLast?_append_of_ne_nil _ hy.1] at hcl
      intro hc
      subst hc
      exact hy.2 (List.mem_of_mem_getLast? hcl)

theorem joinManyL_eq_interL (rel : List (List Char))
    (hrel : ∀ c ∈ rel, c ≠ [] ∧ '/' ∉ c) :
    joinManyL rel = interL '/' rel := by
  cases rel with
  | nil => rfl
  | cons x xs =>
    have hx := hrel x (by simp)
    unfold joinManyL
    refine joinManyL_eq_interL_aux xs x hx.1 ?_
      (fun c hc => hrel c (List.mem_cons_of_mem x hc))
    intro cl hcl hc
    subst hc
    exact hx.2 (List.mem_of_mem_getLast? hcl)

theorem initSlashes_pos (p : List Char) (hp : p.take 1 = ['/']) :
    initSlashes p = 1 ∨ initSlashes p = 2 := by
  unfold initSlashes
  by_cases h2 : p.take 2 = ['/', '/'] ∧ p.take 3 ≠ ['/', '/', '/']
  · rw [if_pos h2]
    exact Or.inr rfl
  · rw [if_neg h2, if_pos hp]
    exact Or.inl rfl

theorem normpathL_ne_nil (p : List Char) : normpathL p ≠ [] := by
  unfold normpathL
  split
  · simp
  · split
    · simp
    · next h1 h2 => exact h2

/-- A leading empty piece is dropped by the nonempty filter. -/
theorem filter_ne_nil_cons_nil (l : List (List Char)) :
    ([] :: l).filter (· ≠ []) = l.filter (· ≠ []) := by
  simp

/-- Elements produced by an `absStep` fold from scratch are good. -/
theorem absStep_fold_good (p : List Char) :
    ∀ x ∈ (splitSepL '/' p).foldl absStep [], GoodComp x :=
  mem_foldl_absStep (splitSepL '/' p) [] (by simp) (mem_splitSepL_no_sep '/' p)

/-- `normpath` of an absolute path rebuilds the result of the `absStep`
fold, with the preserved slashes in front. -/
theorem normpathL_abs_eq (p : List Char) (hp : p.take 1 = ['/']) :
    normpathL p = List.replicate (initSlashes p) '/' ++
      interL '/' ((splitSepL '/' p).foldl absStep []) := by
  have hpne : p ≠ [] := by
    intro h
    rw [h] at hp
    simp at hp
  have hs : initSlashes p = 1 ∨ initSlashes p = 2 := initSlashes_pos p hp
  have hsne : initSlashes p ≠ 0 := by rcases hs with h | h <;> simp [h]
  have hcore : normCore p = List.replicate (initSlashes p) '/' ++
      interL '/' ((splitSepL '/' p).foldl absStep []) := by
    unfold normCore
    rw [foldl_normStep_eq_absStep (initSlashes p) hsne _ [] (by simp)]
  have hne : normCore p ≠ [] := by
    rw [hcore]
    rcases hs with h | h <;> rw [h] <;> simp
  unfold normpathL
  rw [if_neg hpne, if_neg hne, hcore]

/-- The nonempty split components of `normpath` of an absolute path are
exactly the `absStep` fold of the input's components. -/
theorem filter_splitSepL_normpathL (p : List Char) (hp : p.take 1 = ['/']) :
    (splitSepL '/' (normpathL p)).filter (· ≠ []) =
      (splitSepL '/' p).foldl absStep [] := by
  rw [normpathL_abs_eq p hp]
  have hg := absStep_fold_good p
  have hs := initSlashes_pos p hp
  cases hnc : (splitSepL '/' p).foldl absStep [] with
  | nil =>
    rcases hs with h | h <;> rw [h] <;> decide
  | cons x xs =>
    rw [hnc] at hg
    have hgood : ∀ c ∈ x :: xs, c ≠ [] ∧ '/' ∉ c :=
      fun c hc => ⟨(hg c hc).1, (hg c hc).2.2.2⟩
    have hsplit := splitSepL_interL '/' (x :: xs) (by simp) hgood
    have hfilter : (x :: xs).filter (· ≠ []) = x :: xs := by
      rw [List.filter_eq_self]
      intro a ha
      simpa using (hgood a ha).1
    rcases hs with h | h <;> rw [h]
    · rw [show List.replicate 1 '/' ++ interL '/' (x :: xs) =
          '/' :: interL '/' (x :: xs) from rfl,
        splitSepL_sep_cons, hsplit, filter_ne_nil_cons_nil, hfilter]
    · rw [show List.replicate 2 '/' ++ interL '/' (x :: xs) =
          '/' :: '/' :: interL '/' (x :: xs) from rfl,
        splitSepL_sep_cons, splitSepL_sep_cons, hsplit,
        filter_ne_nil_cons_nil, filter_ne_nil_cons_nil, hfilter]

/-- Joining a relative path onto `'/' :: r` yields an absolute path. -/
theorem pyJoinL_abs (r q : List Char) (hq : ¬ q.take 1 = ['/']) :
    (pyJoinL ('/' :: r) q).take 1 = ['/'] := by
  unfold pyJoinL
  rw [if_neg hq]
  split
  · rfl
  · rfl

/-- Splitting `join(pieces) ++ '/' ++ q` peels off all the pieces. -/
theorem splitSepL_inter_append (q : List Char) : ∀ (ls : List (List Char)), ls ≠ [] →
    (∀ c ∈ ls, c ≠ [] ∧ '/' ∉ c) →
    splitSepL '/' (interL '/' ls ++ '/' :: q) = ls ++ splitSepL '/' q
  | [], h, _ => absurd rfl h
  | [x], _, hg => by
    simp only [interL]
    exact splitSepL_append '/' x q (hg x (by simp)).2
  | x :: y :: t, _, hg => by
    simp only [interL]
    rw [show (x ++ '/' :: interL '/' (y :: t)) ++ '/' :: q =
        x ++ '/' :: (interL '/' (y :: t) ++ '/' :: q) from by simp,
      splitSepL_append '/' x _ (hg x (by simp)).2,
      splitSepL_inter_append q (y :: t) (by simp)
        (fun c hc => hg c (List.mem_cons_of_mem x hc))]
    rfl

/-- Splitting `posixpath.join(cwd, q)` for a relative `q` gives the
working root's components followed by `q`'s components. -/
theorem splitSepL_join_cwd (ls : List (List Char)) (hls : ∀ c ∈ ls, GoodComp c)
    (q : List Char) (hq : ¬ q.take 1 = ['/']) :
    splitSepL '/' (pyJoinL ('/' :: interL '/' ls) q) = [] :: ls ++ splitSepL '/' q := by
  cases ls with
  | nil =>
    have hcond : ('/' :: interL '/' ([] : List (List Char))) = [] ∨
        ('/' :: interL '/' ([] : List (List Char))).getLast? = some '/' := Or.inr rfl
    unfold pyJoinL
    rw [if_neg hq, if_pos hcond]
    exact splitSepL_sep_cons '/' q
  | cons x t =>
    have hxne : interL '/' (x :: t) ≠ [] := interL_ne_nil '/' x t (hls x (by simp)).1
    obtain ⟨c, hc1, hc2⟩ := interL_getLast_ne '/' (x :: t) (by simp)
      (fun d hd => ⟨(hls d hd).1, (hls d hd).2.2.2⟩)
    have hcond : ¬(('/' :: interL '/' (x :: t)) = [] ∨
        ('/' :: interL '/' (x :: t)).getLast? = some '/') := by
      rw [not_or]
      refine ⟨by simp, ?_⟩
      intro hlast
      rw [show ('/' :: interL '/' (x :: t)) = ['/'] ++ interL '/' (x :: t) from rfl,
        List.getLast?_append_of_ne_nil _ hxne, hc1] at hlast
      injection hlast with h'
      exact hc2 h'
    unfold pyJoinL
    rw [if_neg hq, if_neg hcond]
    show splitSepL '/' ('/' :: (interL '/' (x :: t) ++ '/' :: q)) =
      [] :: (x :: t) ++ splitSepL '/' q
    rw [splitSepL_sep_cons, splitSepL_inter_append q (x :: t) (by simp)
      (fun d hd => ⟨(hls d hd).1, (hls d hd).2.2.2⟩)]
    rfl

/-- `take 2` of the working root is never a double slash. -/
theorem cwd_take2 (ls : List (List Char)) (hls : ∀ c ∈ ls, GoodComp c) :
    ('/' :: interL '/' ls).take 2 ≠ ['/', '/'] := by
  cases ls with
  | nil => simp [interL]
  | cons x t =>
    obtain ⟨r, hr⟩ := interL_cons_shape '/' x t
    rw [hr]
    cases x with
    | nil => exact absurd rfl (hls [] (by simp)).1
    | cons c cs =>
      intro h2
      rw [show ('/' :: ((c :: cs) ++ r)).take 2 = ['/', c] from rfl] at h2
      injection h2 with h2a h2b
      injection h2b with h2c _
      subst h2c
      exact (hls ('/' :: cs) (by simp)).2.2.2 (List.mem_cons_self _ _)

/-- `normpath` fixes the working root. -/
theorem normpathL_cwd (ls : List (List Char)) (hls : ∀ c ∈ ls, GoodComp c) :
    normpathL ('/' :: interL '/' ls) = '/' :: interL '/' ls := by
  rw [normpathL_abs_eq ('/' :: interL '/' ls) rfl]
  have hinit : initSlashes ('/' :: interL '/' ls) = 1 := by
    unfold initSlashes
    rw [if_neg (fun hand => cwd_take2 ls hls hand.1),
      if_pos (show List.take 1 ('/' :: interL '/' ls) = ['/'] from rfl)]
  have hfold : (splitSepL '/' ('/' :: interL '/' ls)).foldl absStep [] = ls := by
    rw [splitSepL_sep_cons]
    cases ls with
    | nil => rfl
    | cons x t =>
      rw [splitSepL_interL '/' (x :: t) (by simp)
        (fun d hd => ⟨(hls d hd).1, (hls d hd).2.2.2⟩)]
      show (x :: t).foldl absStep (absStep [] []) = x :: t
      rw [show absStep [] ([] : List Char) = [] from rfl,
        foldl_absStep_good (x :: t) []
          (fun d hd => ⟨(hls d hd).1, (hls d hd).2.1, (hls d hd).2.2.1⟩)]
      rfl
  rw [hinit, hfold]
  rfl

/-- The nonempty split components of the working root are its component
list. -/
theorem splitSepL_cwd (ls : List (List Char)) (hls : ∀ c ∈ ls, GoodComp c) :
    (splitSepL '/' ('/' :: interL '/' ls)).filter (· ≠ []) = ls := by
  rw [splitSepL_sep_cons]
  cases ls with
  | nil => rfl
  | cons x t =>
    rw [splitSepL_interL '/' (x :: t) (by simp)
      (fun d hd => ⟨(hls d hd).1, (hls d hd).2.2.2⟩),
      filter_ne_nil_cons_nil]
    exact List.filter_eq_self.mpr (fun a ha => by simpa using (hls a ha).1)

/-- `start_list` of `relpath` is the working root's component list. -/
theorem absComps_cwd (ls : List (List Char)) (hls : ∀ c ∈ ls, GoodComp c) :
    absComps ('/' :: interL '/' ls) ('/' :: interL '/' ls) = ls := by
  unfold absComps abspathL
  rw [if_pos (show List.take 1 ('/' :: interL '/' ls) = ['/'] from rfl),
    normpathL_cwd ls hls]
  exact splitSepL_cwd ls hls

/-- `path_list` of `relpath` for an absolute target. -/
theorem absComps_abs (cwd q : List Char) (hq : q.take 1 = ['/']) :
    absComps cwd q = (splitSepL '/' q).foldl absStep [] := by
  unfold absComps abspathL
  rw [if_pos hq]
  exact filter_splitSepL_normpathL q hq

/-- `path_list` of `relpath` for a relative target: fold the target's
components on top of the working root's. -/
theorem absComps_rel (ls : List (List Char)) (hls : ∀ c ∈ ls, GoodComp c)
    (q : List Char) (hq : ¬ q.take 1 = ['/']) :
    absComps ('/' :: interL '/' ls) q = (splitSepL '/' q).foldl absStep ls := by
  unfold absComps abspathL
  rw [if_neg hq, filter_splitSepL_normpathL _ (pyJoinL_abs _ q hq),
    splitSepL_join_cwd ls hls q hq]
  show ((ls ++ splitSepL '/' q).foldl absStep (absStep [] [])) = _
  rw [show absStep [] ([] : List Char) = [] from rfl, List.foldl_append,
    foldl_absStep_good ls []
      (fun d hd => ⟨(hls d hd).1, (hls d hd).2.1, (hls d hd).2.2.1⟩)]
  simp

/-- `path_list` elements are always good components. -/
theorem absComps_good (ls : List (List Char)) (hls : ∀ c ∈ ls, GoodComp c)
    (q : List Char) : ∀ x ∈ absComps ('/' :: interL '/' ls) q, GoodComp x := by
  by_cases hq : q.take 1 = ['/']
  · rw [absComps_abs _ q hq]
    exact mem_foldl_absStep _ [] (by simp) (mem_splitSepL_no_sep '/' q)
  · rw [absComps_rel ls hls q hq]
    exact mem_foldl_absStep _ ls hls (mem_splitSepL_no_sep '/' q)

theorem drop_append_take (l tl2 : List (List Char)) (i : Nat) (h : i ≤ l.length) :
    (l.take i ++ tl2).drop i = tl2 := by
  have hlen : (l.take i).length = i := by
    rw [List.length_take]
    exact Nat.min_eq_left h
  calc (l.take i ++ tl2).drop i
      = (l.take i ++ tl2).drop (l.take i).length := by rw [hlen]
    _ = tl2 := List.drop_left _ _

/-- Core idempotence at the character-list level: with an absolute
normalized working root, `relpath(normpath(·), start=cwd)` is
idempotent. -/
theorem normalizePathL_idem (ls : List (List Char)) (hls : ∀ c ∈ ls, GoodComp c)
    (p : List Char) :
    normalizePathL ('/' :: interL '/' ls) (normalizePathL ('/' :: interL '/' ls) p) =
      normalizePathL ('/' :: interL '/' ls) p := by
  unfold normalizePathL
  obtain ⟨q, hqdef⟩ : ∃ q, normpathL p = q := ⟨_, rfl⟩
  have hqne : q ≠ [] := by
    rw [← hqdef]
    exact normpathL_ne_nil p
  rw [hqdef]
  have hplg : ∀ x ∈ absComps ('/' :: interL '/' ls) q, GoodComp x := absComps_good ls hls q
  have hile : cpl ls (absComps ('/' :: interL '/' ls) q) ≤ ls.length := cpl_le_left ls _
  have hrell : relList ('/' :: interL '/' ls) q =
      List.replicate (ls.length - cpl ls (absComps ('/' :: interL '/' ls) q)) ['.', '.'] ++
        (absComps ('/' :: interL '/' ls) q).drop
          (cpl ls (absComps ('/' :: interL '/' ls) q)) := by
    unfold relList
    rw [absComps_cwd ls hls]
  by_cases hrel : relList ('/' :: interL '/' ls) q = []
  · -- `relpath` returned `'.'`, which renormalizes to `'.'`.
    have hr : relpathL ('/' :: interL '/' ls) q = ['.'] := by
      unfold relpathL
      rw [if_neg hqne, if_pos hrel]
    rw [hr]
    have hdot : normpathL ['.'] = ['.'] := by decide
    rw [hdot]
    have hac : absComps ('/' :: interL '/' ls) ['.'] = ls := by
      rw [absComps_rel ls hls ['.'] (by decide)]
      rfl
    have hrl : relList ('/' :: interL '/' ls) ['.'] = [] := by
      unfold relList
      rw [absComps_cwd ls hls, hac, cpl_self]
      simp
    unfold relpathL
    rw [if_neg (by decide : ¬(['.'] : List Char) = []), if_pos hrl]
  · -- `relpath` returned `..*k ++ tail`, a fixed point of normalization.
    have htl_good : ∀ c ∈ (absComps ('/' :: interL '/' ls) q).drop
        (cpl ls (absComps ('/' :: interL '/' ls) q)), GoodComp c :=
      fun c hc => hplg c (List.drop_subset _ _ hc)
    have htl3 : ∀ c ∈ (absComps ('/' :: interL '/' ls) q).drop
        (cpl ls (absComps ('/' :: interL '/' ls) q)),
        c ≠ [] ∧ c ≠ ['.'] ∧ c ≠ ['.', '.'] :=
      fun c hc => ⟨(htl_good c hc).1, (htl_good c hc).2.1, (htl_good c hc).2.2.1⟩
    have hrel_elems : ∀ c ∈ relList ('/' :: interL '/' ls) q, c ≠ [] ∧ '/' ∉ c := by
      rw [hrell]
      intro c hc
      rcases List.mem_append.mp hc with hc | hc
      · rw [List.eq_of_mem_replicate hc]
        exact ⟨by decide, by decide⟩
      · exact ⟨(htl_good c hc).1, (htl_good c hc).2.2.2⟩
    have hr : relpathL ('/' :: interL '/' ls) q =
        interL '/' (relList ('/' :: interL '/' ls) q) := by
      unfold relpathL
      rw [if_neg hqne, if_neg hrel, joinManyL_eq_interL _ hrel_elems]
    cases hrelc : relList ('/' :: interL '/' ls) q with
    | nil => exact absurd hrelc hrel
    | cons x xs =>
      rw [hrelc] at hrel_elems hrell hr
      cases x with
      | nil => exact absurd rfl (hrel_elems [] (List.mem_cons_self _ _)).1
      | cons ch cx =>
        obtain ⟨rr, hrr⟩ := interL_cons_shape '/' (ch :: cx) xs
        have hch : ch ≠ '/' := by
          intro h
          refine (hrel_elems (ch :: cx) (List.mem_cons_self _ _)).2 ?_
          rw [h]
          exact List.mem_cons_self _ _
        have hsp : splitSepL '/' (interL '/' ((ch :: cx) :: xs)) = (ch :: cx) :: xs :=
          splitSepL_interL '/' _ (by simp) hrel_elems
        have hfold0 : ((ch :: cx) :: xs).foldl (normStep 0) [] = (ch :: cx) :: xs := by
          rw [hrell]
          exact foldl_normStep0_shape _ _ htl3
        have hr2 : relpathL ('/' :: interL '/' ls) q = (ch :: cx) ++ rr := by
          rw [hr, hrr]
        have hB : ¬((ch :: cx) ++ rr).take 1 = ['/'] := by
          intro h1
          rw [show ((ch :: cx) ++ rr).take 1 = [ch] from rfl] at h1
          injection h1 with h1a _
          exact hch h1a
        have hinit0 : initSlashes ((ch :: cx) ++ rr) = 0 := by
          have hA : ¬(((ch :: cx) ++ rr).take 2 = ['/', '/'] ∧
              ((ch :: cx) ++ rr).take 3 ≠ ['/', '/', '/']) := by
            rintro ⟨h2, _⟩
            rw [show ((ch :: cx) ++ rr).take 2 = ch :: (cx ++ rr).take 1 from rfl] at h2
            injection h2 with h2a _
            exact hch h2a
          unfold initSlashes
          rw [if_neg hA, if_neg hB]
        have hnorm_r : normpathL ((ch :: cx) ++ rr) = (ch :: cx) ++ rr := by
          have hcore : normCore ((ch :: cx) ++ rr) = (ch :: cx) ++ rr := by
            unfold normCore
            rw [hinit0, show ((ch :: cx) ++ rr) = interL '/' ((ch :: cx) :: xs) from hrr.symm,
              hsp, hfold0]
            simp
          unfold normpathL
          rw [if_neg (by simp), if_neg (by rw [hcore]; simp), hcore]
        have hac_r : absComps ('/' :: interL '/' ls) ((ch :: cx) ++ rr) =
            ls.take (cpl ls (absComps ('/' :: interL '/' ls) q)) ++
              (absComps ('/' :: interL '/' ls) q).drop
                (cpl ls (absComps ('/' :: interL '/' ls) q)) := by
          rw [absComps_rel ls hls _ hB,
            show ((ch :: cx) ++ rr) = interL '/' ((ch :: cx) :: xs) from hrr.symm, hsp,
            hrell, List.foldl_append, foldl_absStep_dots, Nat.sub_sub_self hile]
          exact foldl_absStep_good _ _ htl3
        have hcpl_r : cpl ls (absComps ('/' :: interL '/' ls) ((ch :: cx) ++ rr)) =
            cpl ls (absComps ('/' :: interL '/' ls) q) := by
          rw [hac_r, cpl_append_take ls _ _ hile, cpl_drop ls]
          omega
        have hrell_r : relList ('/' :: interL '/' ls) ((ch :: cx) ++ rr) =
            (ch :: cx) :: xs := by
          unfold relList
          rw [absComps_cwd ls hls, hcpl_r, hac_r, drop_append_take ls _ _ hile, ← hrell]
        have hfinal : relpathL ('/' :: interL '/' ls) ((ch :: cx) ++ rr) =
            (ch :: cx) ++ rr := by
          unfold relpathL
          rw [if_neg (by simp), hrell_r, if_neg (by simp),
            joinManyL_eq_interL _ hrel_elems, hrr]
        rw [hr2, hnorm_r, hfinal]

/-! ## Claim theorems -/

/-- **C5**: path normalization is idempotent — for every path string and
a fixed working root of the shape `os.getcwd()` returns (absolute,
normalized, no leading double slash), normalizing an already-normalized
path returns the same string. -/
theorem c5_normalize_idempotent (cwd p : String) (h : AbsNormCwd cwd.data) :
    normalizePath cwd (normalizePath cwd p) = normalizePath cwd p := by
  obtain ⟨ls, hls, hcwd⟩ := h
  unfold normalizePath
  rw [show (⟨normalizePathL cwd.data p.data⟩ : String).data =
      normalizePathL cwd.data p.data from rfl, hcwd]
  exact congrArg String.mk (normalizePathL_idem ls hls p.data)

/-- Witness for C5 at a concrete root and a path with `.` and `..`
segments. -/
theorem c5_witness :
    AbsNormCwd ("/repo/sub").data ∧
    normalizePath "/repo/sub" (normalizePath "/repo/sub" "./a/../../b//c.py") =
      normalizePath "/repo/sub" "./a/../../b//c.py" :=
  ⟨⟨[['r', 'e', 'p', 'o'], ['s', 'u', 'b']], by decide, by decide⟩,
   c5_normalize_idempotent "/repo/sub" "./a/../../b//c.py"
     ⟨[['r', 'e', 'p', 'o'], ['s', 'u', 'b']], by decide, by decide⟩⟩

/-- **C1 (counterexample)**: the claim says every JSON-based extractor
returns an empty mapping (and does not raise) on empty or whitespace-only
input; but `CfnNagParser.parse_violations("")` calls `json.loads("")`
directly and raises a `JSONDecodeError` (`none`), returning no mapping at
all. -/
theorem c1_counterexample : cfnNagParse "/repo" "" = none := rfl

/-- **C1 (amended)**: the GitLeaks extractor returns an empty mapping
without error only for exactly-empty input (its guard is `if not
output`); whitespace-only input reaches `json.loads` and raises.  The
CfnNag extractor has no guard at all and raises on both empty and
whitespace-only input. -/
theorem c1_empty_and_whitespace (cwd : String) :
    gitleaksParse cwd "" = some [] ∧
    gitleaksParse cwd " " = none ∧
    cfnNagParse cwd "" = none ∧
    cfnNagParse cwd " \t\n" = none :=
  ⟨rfl, rfl, rfl, rfl⟩

/-- Witness for C1's amended theorem at a concrete working root. -/
theorem c1_witness :
    gitleaksParse "/repo" "" = some [] ∧
    gitleaksParse "/repo" " " = none ∧
    cfnNagParse "/repo" "" = none ∧
    cfnNagParse "/repo" " \t\n" = none :=
  c1_empty_and_whitespace "/repo"

/-- **C2 (counterexample)**: the claim says a header line with zero
indented lines produces an entry with an empty violation list; but the
ESLint extractor only stores `current_file` on a header line and never
touches the `defaultdict`, so the returned mapping is empty — it has no
entry for `file.js`. -/
theorem c2_counterexample : eslintParse "/repo" "file.js" = some [] := rfl

/-- **C2 (amended)**: in both indented-block extractors a header line
followed by zero indented violation lines creates *no* entry in the
returned mapping — a trailing header leaves the loop's result unchanged,
and an input consisting of a single header line yields the empty
mapping. -/
theorem c2_header_creates_no_entry :
    (∀ (cwd h : String), pyStartsWith h " " = false → pyStartsWith h "✖" = false →
      ∀ (ls : List String) (cf : Option String) (m : OViolMap),
        eslintGo cwd cf m (ls ++ [h]) = eslintGo cwd cf m ls) ∧
    (∀ (cwd h : String), pyStartsWith h " " = false →
      ∀ (ls : List String) (cf : Option String) (m : OViolMap),
        stylelintGo cwd cf m (ls ++ [h]) = stylelintGo cwd cf m ls) ∧
    (∀ (cwd s h : String), pyLines s = [h] → pyStartsWith h " " = false →
      pyStartsWith h "✖" = false →
      eslintParse cwd s = some [] ∧ stylelintParse cwd s = some []) := by
  refine ⟨fun cwd h h1 h2 => eslintGo_trailing_header cwd h h1 h2,
          fun cwd h h1 => stylelintGo_trailing_header cwd h h1, ?_⟩
  intro cwd s h h1 h2 h3
  constructor
  · unfold eslintParse
    rw [h1]
    have := eslintGo_trailing_header cwd h h2 h3 [] none []
    simpa using this
  · unfold stylelintParse
    rw [h1]
    have := stylelintGo_trailing_header cwd h h2 [] none []
    simpa using this

/-- Witness for C2's amended theorem on a single-header input. -/
theorem c2_witness :
    pyLines "lone-header.js" = ["lone-header.js"] ∧
    pyStartsWith "lone-header.js" " " = false ∧
    pyStartsWith "lone-header.js" "✖" = false ∧
    (eslintParse "/repo" "lone-header.js" = some [] ∧
     stylelintParse "/repo" "lone-header.js" = some []) :=
  ⟨rfl, rfl, rfl,
   c2_header_creates_no_entry.2.2 "/repo" "lone-header.js" "lone-header.js" rfl rfl rfl⟩

/-- **C3 (counterexample)**: the claim says indented-block extractors also
silently skip any non-matching line; but an *indented* line that fails
the violation grammar makes `ESLintParser` call `.group` on `None`,
raising an `AttributeError` (`none`). -/
theorem c3_counterexample : eslintParse "/repo" "app.js\n  totally bogus" = none := rfl

/-- **C3 (amended)**: a line-oriented extractor silently skips every
non-matching line (the line contributes nothing and the parse never fails
because of it); an indented-block extractor treats non-matching
*non-indented* lines as file headers, but raises on an indented line that
fails its violation grammar. -/
theorem c3_nonmatching_lines :
    (∀ (mf : String → Option ReGroups) (cwd l : String), mf (pyStrip l) = none →
      ∀ (ls1 ls2 : List String) (m : ViolMap),
        lineRegexGo mf cwd m (ls1 ++ l :: ls2) = lineRegexGo mf cwd m (ls1 ++ ls2)) ∧
    eslintParse "/repo" "lib.js\n  broken line" = none :=
  ⟨fun mf cwd l hl => lineRegexGo_skip mf cwd l hl, rfl⟩

/-- Witness for C3's amended theorem: a banner line is skipped by the
default line-regex grammar. -/
theorem c3_witness :
    defaultLineMatch (pyStrip "== summary banner ==") = none ∧
    lineRegexGo defaultLineMatch "/repo" [] ([] ++ "== summary banner ==" :: ["a.py:1:2: E1 m"]) =
      lineRegexGo defaultLineMatch "/repo" [] ([] ++ ["a.py:1:2: E1 m"]) :=
  ⟨rfl, c3_nonmatching_lines.1 defaultLineMatch "/repo" "== summary banner ==" rfl [] ["a.py:1:2: E1 m"] []⟩

/-- **C4**: a single-line input that matches a line-oriented grammar
yields a mapping with exactly one key — the normalized captured path —
holding exactly one violation whose fields are the captured groups, the
numeric ones parsed by `int(...)`. -/
theorem c4_single_line_match (mf : String → Option ReGroups) (cwd out l : String)
    (g : ReGroups) (ln col : Int)
    (h1 : pyLines out = [l]) (h2 : mf (pyStrip l) = some g)
    (h3 : pyInt g.line = some ln) (h4 : pyInt g.column = some col) :
    lineRegexParse mf cwd out =
      some [(normalizePath cwd g.path, [⟨ln, col, g.code, g.message⟩])] := by
  unfold lineRegexParse
  rw [h1]
  simp [lineRegexGo, h2, h3, h4, addAppend]

/-- Witness for C4 on the flake8 example line from the source comments. -/
theorem c4_witness :
    pyLines "docs/conf.py:230:1: E265 block comment" = ["docs/conf.py:230:1: E265 block comment"] ∧
    defaultLineMatch (pyStrip "docs/conf.py:230:1: E265 block comment") =
      some ⟨"docs/conf.py", "230", "1", "E265", "block comment"⟩ ∧
    lineRegexParse defaultLineMatch "/repo" "docs/conf.py:230:1: E265 block comment" =
      some [("docs/conf.py", [⟨230, 1, "E265", "block comment"⟩])] :=
  ⟨rfl, rfl,
   (c4_single_line_match defaultLineMatch "/repo" "docs/conf.py:230:1: E265 block comment"
     "docs/conf.py:230:1: E265 block comment" ⟨"docs/conf.py", "230", "1", "E265", "block comment"⟩
     230 1 rfl rfl rfl rfl).trans rfl⟩

/-- **C6**: for the ESLint extractor, once a line starting with the
terminator glyph `✖` is reached, everything after it is ignored: parsing
the whole input equals running the loop on just the lines up to and
including the terminator line. -/
theorem c6_terminator_truncates (cwd s t : String) (pre post : List String)
    (h1 : pyLines s = pre ++ t :: post) (h2 : pyStartsWith t "✖" = true) :
    eslintParse cwd s = eslintGo cwd none [] (pre ++ [t]) := by
  unfold eslintParse
  rw [h1]
  exact eslintGo_terminator cwd t h2 pre post none []

/-- Witness for C6 on the specification's example input. -/
theorem c6_witness :
    pyLines "file.js\n  1:1 error msg rule\n✖ 1 problem\nextra garbage" =
      ["file.js", "  1:1 error msg rule"] ++ "✖ 1 problem" :: ["extra garbage"] ∧
    pyStartsWith "✖ 1 problem" "✖" = true ∧
    eslintParse "/repo" "file.js\n  1:1 error msg rule\n✖ 1 problem\nextra garbage" =
      eslintGo "/repo" none [] (["file.js", "  1:1 error msg rule"] ++ ["✖ 1 problem"]) :=
  ⟨rfl, rfl, c6_terminator_truncates "/repo" _ "✖ 1 problem" _ _ rfl rfl⟩

/-- **C8**: a line starting with `would reformat ` yields a single-entry
mapping from the normalized last word of the line to exactly one
violation with line 1, column 1 and the fixed code/message pair; any line
not starting with that prefix contributes nothing. -/
theorem c8_black_keyword (cwd s l : String)
    (h1 : pyLines s = [l]) (h2 : pyStartsWith l "would reformat " = true) :
    blackParse cwd s =
      [(normalizePath cwd (lastWord l),
        [⟨1, 1, "`black`", "this file needs to be formatted"⟩])] ∧
    (∀ (l' : String), pyStartsWith l' "would reformat " = false →
      ∀ (ls1 ls2 : List String) (m : ViolMap),
        blackGo cwd m (ls1 ++ l' :: ls2) = blackGo cwd m (ls1 ++ ls2)) := by
  constructor
  · unfold blackParse
    rw [h1]
    simp [blackGo, h2, dictSet, blackViolation]
  · exact fun l' h' => blackGo_skip cwd l' h'

/-- Witness for C8 on the specification's example input. -/
theorem c8_witness :
    pyLines "would reformat src/foo.py\n" = ["would reformat src/foo.py"] ∧
    pyStartsWith "would reformat src/foo.py" "would reformat " = true ∧
    blackParse "/repo" "would reformat src/foo.py\n" =
      [("src/foo.py", [⟨1, 1, "`black`", "this file needs to be formatted"⟩])] :=
  ⟨rfl, rfl,
   ((c8_black_keyword "/repo" "would reformat src/foo.py\n" "would reformat src/foo.py" rfl rfl).1).trans rfl⟩

/-- **C9**: an unknown format key resolves to a configuration error:
lookup in the fixed `PARSERS` table is case-sensitive exact string
matching, aliases included, and resolution does not involve the raw
output at all (`resolveFormat` never receives it), so the failure
precedes any parsing. -/
theorem c9_registry_lookup (key : String) (hk : key ∉ PARSERS.map Prod.fst) :
    resolveFormat key = none ∧
    resolveFormat "flake8" = some Extractor.defaultLineRegex ∧
    resolveFormat "unix" = some Extractor.defaultLineRegex ∧
    resolveFormat "Flake8" = none ∧
    resolveFormat "ESLINT" = none ∧
    resolveFormat "eslint" = some Extractor.eslintFmt :=
  ⟨lookup_none_of_not_mem key PARSERS hk, rfl, rfl, rfl, rfl, rfl⟩

/-- Witness for C9 on a concrete unknown key. -/
theorem c9_witness :
    "not-a-format" ∉ PARSERS.map Prod.fst ∧ resolveFormat "not-a-format" = none :=
  ⟨by decide, (c9_registry_lookup "not-a-format" (by decide)).1⟩

/-! ## cfn-nag lemmas and claims (C7, C10) -/

/-- The inner line-number loop on a list of integer line numbers expands
to one violation per line number, sharing the record's `id`/`message`,
with column `0`. -/
theorem cfnNagInfoFold_nums (vi : JValue) (c msg : String)
    (hid : jget vi "id" = some (.jstr c))
    (hmsg : jget vi "message" = some (.jstr msg)) :
    ∀ (lns : List Int) (acc : List Violation),
      cfnNagInfoFold vi (lns.map JValue.jnum) acc =
        some (acc ++ lns.map (fun n => ⟨n, 0, c, msg⟩)) := by
  intro lns
  induction lns with
  | nil => intro acc; simp [cfnNagInfoFold]
  | cons n rest ih =>
    intro acc
    simp only [List.map_cons, cfnNagInfoFold, hid, hmsg]
    rw [ih]
    simp

/-- A successful cfn-nag file step is exactly a dict assignment of the
normalized `filename` of the record. -/
theorem cfnNagFile_shape (cwd : String) (m : ViolMap) (file : JValue) (m₁ : ViolMap)
    (h : cfnNagFile cwd m file = some m₁) :
    ∃ fn fvs, jget file "filename" = some (.jstr fn) ∧
      m₁ = dictSet m (normalizePath cwd fn) fvs := by
  unfold cfnNagFile at h
  split at h
  · split at h
    · split at h
      · split at h
        · split at h
          · exact ⟨_, _, by assumption, by injection h with h'; exact h'.symm⟩
          · exact absurd h (by simp)
        · exact absurd h (by simp)
      · exact absurd h (by simp)
    · exact absurd h (by simp)
  · exact absurd h (by simp)

/-- `dictSet` puts its key into the key column. -/
theorem dictSet_mem_keys {α : Type} (k : String) (v : α) :
    ∀ (m : List (String × α)), k ∈ (dictSet m k v).map Prod.fst := by
  intro m
  induction m with
  | nil => simp [dictSet]
  | cons p rest ih =>
    by_cases hk : p.1 = k
    · simp [dictSet, hk]
    · simp only [dictSet, if_neg hk, List.map_cons, List.mem_cons]
      exact Or.inr ih

/-- `dictSet` preserves all existing keys. -/
theorem dictSet_keys_mono {α : Type} (a k : String) (v : α) :
    ∀ (m : List (String × α)), a ∈ m.map Prod.fst → a ∈ (dictSet m k v).map Prod.fst := by
  intro m
  induction m with
  | nil => intro h; simp at h
  | cons p rest ih =>
    intro h
    simp only [List.map_cons, List.mem_cons] at h
    by_cases hk : p.1 = k
    · rcases h with rfl | h
      · simp [dictSet, hk]
      · simp only [dictSet, if_pos hk, List.map_cons, List.mem_cons]
        exact Or.inr h
    · rcases h with rfl | h
      · simp [dictSet, hk]
      · simp only [dictSet, if_neg hk, List.map_cons, List.mem_cons]
        exact Or.inr (ih h)

/-- Keys survive the cfn-nag file loop, and every successfully processed
record's normalized filename ends up in the key column. -/
theorem cfnNagFold_keys (cwd : String) :
    ∀ (files : List JValue) (m m' : ViolMap),
      foldOpt (cfnNagFile cwd) m files = some m' →
      (∀ a ∈ m.map Prod.fst, a ∈ m'.map Prod.fst) ∧
      (∀ file ∈ files, ∀ fn, jget file "filename" = some (.jstr fn) →
        normalizePath cwd fn ∈ m'.map Prod.fst) := by
  intro files
  induction files with
  | nil =>
    intro m m' h
    simp only [foldOpt] at h
    injection h with h
    subst h
    exact ⟨fun a ha => ha, by simp⟩
  | cons f rest ih =>
    intro m m' h
    simp only [foldOpt] at h
    cases hf : cfnNagFile cwd m f with
    | none => rw [hf] at h; exact absurd h (by simp)
    | some m₁ =>
      rw [hf] at h
      obtain ⟨fn, fvs, hfn, rfl⟩ := cfnNagFile_shape cwd m f m₁ hf
      have hrest := ih _ m' h
      refine ⟨fun a ha => hrest.1 a (dictSet_keys_mono a _ fvs m ha), ?_⟩
      intro file hmem fn' hfn'
      rcases List.mem_cons.mp hmem with rfl | hmem'
      · have : fn' = fn := by
          rw [hfn] at hfn'
          injection hfn' with h'
          injection h' with h'
          exact h'.symm
        subst this
        exact hrest.1 _ (dictSet_mem_keys _ fvs m)
      · exact hrest.2 file hmem' fn' hfn'

/-- **C7**: a cfn-nag violation record carrying `N` line numbers produces
exactly `N` violations in the output list for its file, all sharing the
record's `id` and `message`, each with column equal to the "not
reported" sentinel `0`. -/
theorem c7_line_expansion (cwd : String) (file fr vi : JValue) (fn c msg : String)
    (lns : List Int)
    (h1 : jget file "file_results" = some fr)
    (h2 : jget fr "violations" = some (.jarr [vi]))
    (h3 : jget vi "line_numbers" = some (.jarr (lns.map JValue.jnum)))
    (h4 : jget vi "id" = some (.jstr c))
    (h5 : jget vi "message" = some (.jstr msg))
    (h6 : jget file "filename" = some (.jstr fn)) :
    foldOpt (cfnNagFile cwd) [] [file] =
      some [(normalizePath cwd fn, lns.map (fun n => ⟨n, 0, c, msg⟩))] ∧
    (lns.map (fun n => (⟨n, 0, c, msg⟩ : Violation))).length = lns.length ∧
    ∀ v ∈ lns.map (fun n => (⟨n, 0, c, msg⟩ : Violation)),
      v.column = 0 ∧ v.code = c ∧ v.message = msg := by
  refine ⟨?_, by simp, ?_⟩
  · simp only [foldOpt, cfnNagFile, h1, h2, jelems, cfnNagInfos, h3]
    rw [cfnNagInfoFold_nums vi c msg h4 h5 lns []]
    simp [h6, dictSet]
  · intro v hv
    simp only [List.mem_map] at hv
    obtain ⟨n, _, rfl⟩ := hv
    exact ⟨rfl, rfl, rfl⟩

/-- Witness for C7 on a concrete three-line-number record. -/
theorem c7_witness :
    foldOpt (cfnNagFile "/repo") []
      [JValue.jobj [("filename", JValue.jstr "t.yaml"),
        ("file_results", JValue.jobj [("violations", JValue.jarr
          [JValue.jobj [("id", JValue.jstr "W1"), ("message", JValue.jstr "bad"),
            ("line_numbers", JValue.jarr [JValue.jnum 3, JValue.jnum 7, JValue.jnum 9])]])])]] =
      some [("t.yaml", [⟨3, 0, "W1", "bad"⟩, ⟨7, 0, "W1", "bad"⟩, ⟨9, 0, "W1", "bad"⟩])] :=
  ((c7_line_expansion "/repo"
    (JValue.jobj [("filename", JValue.jstr "t.yaml"),
      ("file_results", JValue.jobj [("violations", JValue.jarr
        [JValue.jobj [("id", JValue.jstr "W1"), ("message", JValue.jstr "bad"),
          ("line_numbers", JValue.jarr [JValue.jnum 3, JValue.jnum 7, JValue.jnum 9])]])])])
    (JValue.jobj [("violations", JValue.jarr
      [JValue.jobj [("id", JValue.jstr "W1"), ("message", JValue.jstr "bad"),
        ("line_numbers", JValue.jarr [JValue.jnum 3, JValue.jnum 7, JValue.jnum 9])]])])
    (JValue.jobj [("id", JValue.jstr "W1"), ("message", JValue.jstr "bad"),
      ("line_numbers", JValue.jarr [JValue.jnum 3, JValue.jnum 7, JValue.jnum 9])])
    "t.yaml" "W1" "bad" [3, 7, 9] rfl rfl rfl rfl rfl rfl).1).trans rfl

/-- **C10**: every successfully processed cfn-nag file record contributes
its normalized filename as a key of the returned mapping — including a
record with zero violations, whose value is the empty list — and when two
records normalize to the same path, the later record's list replaces the
earlier one's (plain dict assignment, no appending). -/
theorem c10_cfnnag_keys_and_replace :
    (∀ (cwd : String) (files : List JValue) (m' : ViolMap),
      foldOpt (cfnNagFile cwd) [] files = some m' →
      ∀ file ∈ files, ∀ fn, jget file "filename" = some (.jstr fn) →
        normalizePath cwd fn ∈ m'.map Prod.fst) ∧
    (∀ (cwd : String) (file fr : JValue) (fn : String),
      jget file "file_results" = some fr →
      jget fr "violations" = some (.jarr []) →
      jget file "filename" = some (.jstr fn) →
      foldOpt (cfnNagFile cwd) [] [file] = some [(normalizePath cwd fn, [])]) ∧
    (∀ (cwd : String) (f1 f2 fr2 : JValue) (p : String) (l1 l2 : List Violation)
       (infos2 : List JValue) (fn2 : String),
      cfnNagFile cwd [] f1 = some [(p, l1)] →
      jget f2 "file_results" = some fr2 →
      jget fr2 "violations" = some (.jarr infos2) →
      cfnNagInfos infos2 [] = some l2 →
      jget f2 "filename" = some (.jstr fn2) →
      normalizePath cwd fn2 = p →
      foldOpt (cfnNagFile cwd) [] [f1, f2] = some [(p, l2)]) := by
  refine ⟨fun cwd files m' h => (cfnNagFold_keys cwd files [] m' h).2, ?_, ?_⟩
  · intro cwd file fr fn h1 h2 h3
    simp [foldOpt, cfnNagFile, h1, h2, jelems, cfnNagInfos, h3, dictSet]
  · intro cwd f1 f2 fr2 p l1 l2 infos2 fn2 hf1 h1 h2 h3 h4 h5
    have step2 : cfnNagFile cwd [(p, l1)] f2 = some [(p, l2)] := by
      simp only [cfnNagFile, h1, h2, jelems, h3, h4, h5]
      simp [dictSet]
    simp only [foldOpt, hf1, step2]

/-- Witness for C10: a record with violations and a second zero-violation
record whose filename normalizes to the same path; the final mapping
holds the later (empty) list. -/
theorem c10_witness :
    foldOpt (cfnNagFile "/repo") []
      [JValue.jobj [("filename", JValue.jstr "t.yaml"),
        ("file_results", JValue.jobj [("violations", JValue.jarr
          [JValue.jobj [("id", JValue.jstr "W1"), ("message", JValue.jstr "bad"),
            ("line_numbers", JValue.jarr [JValue.jnum 3])]])])],
       JValue.jobj [("filename", JValue.jstr "./t.yaml"),
        ("file_results", JValue.jobj [("violations", JValue.jarr [])])]] =
      some [("t.yaml", [])] :=
  (c10_cfnnag_keys_and_replace.2.2 "/repo"
    (JValue.jobj [("filename", JValue.jstr "t.yaml"),
      ("file_results", JValue.jobj [("violations", JValue.jarr
        [JValue.jobj [("id", JValue.jstr "W1"), ("message", JValue.jstr "bad"),
          ("line_numbers", JValue.jarr [JValue.jnum 3])]])])])
    (JValue.jobj [("filename", JValue.jstr "./t.yaml"),
      ("file_results", JValue.jobj [("violations", JValue.jarr [])])])
    (JValue.jobj [("violations", JValue.jarr [])])
    "t.yaml" [⟨3, 0, "W1", "bad"⟩] [] [] "./t.yaml"
    rfl rfl rfl rfl rfl rfl).trans rfl

end Lintly
